import Mathlib

/-!
Shallow embedding of the rectangle-dividing library over exact rational
arithmetic.  Geometry values (points, extents, positioned rectangles) are
records of rationals; the dividing engine is translated function by function
from the source (`point.rs`, `rectangle.rs`, `axis_aligned_rectangle.rs`,
`weight.rs`, `dividing.rs`).
-/

namespace RectDiv

/-- A point in 2D space (`point.rs`, struct `Point`). -/
structure Point where
  x : ℚ
  y : ℚ
deriving DecidableEq

/-- A rectangle extent: width and height (`rectangle.rs`, struct `Rectangle`). -/
structure Rectangle where
  width : ℚ
  height : ℚ
deriving DecidableEq

/-- A positioned rectangle: origin point plus extent
(`axis_aligned_rectangle.rs`, struct `AxisAlignedRectangle`). -/
structure AxisAlignedRectangle where
  point : Point
  rectangle : Rectangle
deriving DecidableEq

/-- An axis in 2D space (`axis.rs`, enum `Axis`). -/
inductive Axis where
  | Vertical
  | Horizontal
deriving DecidableEq

/-- Corner-bias policy for rounding (`point.rs`, enum `Edge`). -/
inductive Edge where
  | LeftTop
  | RightTop
  | LeftBottom
  | RightBottom
deriving DecidableEq

/-- `Axis::opposite` (`axis.rs`). -/
def Axis.opposite : Axis → Axis
  | .Vertical => .Horizontal
  | .Horizontal => .Vertical

/-- `Point::rotate_clockwise` (`point.rs`): swaps the two components. -/
def Point.rotate_clockwise (p : Point) : Point :=
  ⟨p.y, p.x⟩

/-- `QuarterRotation::rotate_counter_clockwise` default (`rotate.rs`):
three clockwise rotations. -/
def Point.rotate_counter_clockwise (p : Point) : Point :=
  p.rotate_clockwise.rotate_clockwise.rotate_clockwise

/-- `ValueForAxis for Point` (`point.rs`). -/
def Point.value_for_axis (p : Point) : Axis → ℚ
  | .Vertical => p.x
  | .Horizontal => p.y

/-- `Point::round` (`point.rs`): floors or ceils each coordinate according to
the chosen corner-bias policy. -/
def Point.round (p : Point) : Edge → Point
  | .LeftTop => ⟨(⌊p.x⌋ : ℤ), (⌊p.y⌋ : ℤ)⟩
  | .RightTop => ⟨(⌈p.x⌉ : ℤ), (⌊p.y⌋ : ℤ)⟩
  | .LeftBottom => ⟨(⌊p.x⌋ : ℤ), (⌈p.y⌉ : ℤ)⟩
  | .RightBottom => ⟨(⌈p.x⌉ : ℤ), (⌈p.y⌉ : ℤ)⟩

/-- `Rectangle::rotate_clockwise` (`rectangle.rs`): swaps width and height. -/
def Rectangle.rotate_clockwise (r : Rectangle) : Rectangle :=
  ⟨r.height, r.width⟩

/-- `rotate_counter_clockwise` default for `Rectangle` (`rotate.rs`). -/
def Rectangle.rotate_counter_clockwise (r : Rectangle) : Rectangle :=
  r.rotate_clockwise.rotate_clockwise.rotate_clockwise

/-- `Area for Rectangle` (`rectangle.rs`): width times height. -/
def Rectangle.area (r : Rectangle) : ℚ :=
  r.width * r.height

/-- `SizeForAxis for Rectangle` (`rectangle.rs`): width for vertical,
height for horizontal. -/
def Rectangle.size_for_axis (r : Rectangle) : Axis → ℚ
  | .Vertical => r.width
  | .Horizontal => r.height

/-- Rust `f64::round`: round half away from zero (`rectangle.rs` uses it
field-wise in `Rectangle::round`). -/
def rust_round (q : ℚ) : ℚ :=
  if 0 ≤ q then ((⌊q + 1/2⌋ : ℤ) : ℚ) else ((⌈q - 1/2⌉ : ℤ) : ℚ)

/-- `Rectangle::round` (`rectangle.rs`): rounds width and height to the
nearest integer. -/
def Rectangle.round (r : Rectangle) : Rectangle :=
  ⟨rust_round r.width, rust_round r.height⟩

/-- Accessor `x` of a positioned rectangle (`Component for AxisAlignedRectangle`). -/
def AxisAlignedRectangle.x (a : AxisAlignedRectangle) : ℚ := a.point.x

/-- Accessor `y` of a positioned rectangle. -/
def AxisAlignedRectangle.y (a : AxisAlignedRectangle) : ℚ := a.point.y

/-- Accessor `width` of a positioned rectangle (`RectangleSize`). -/
def AxisAlignedRectangle.width (a : AxisAlignedRectangle) : ℚ := a.rectangle.width

/-- Accessor `height` of a positioned rectangle. -/
def AxisAlignedRectangle.height (a : AxisAlignedRectangle) : ℚ := a.rectangle.height

/-- `Area for AxisAlignedRectangle` (`axis_aligned_rectangle.rs`). -/
def AxisAlignedRectangle.area (a : AxisAlignedRectangle) : ℚ :=
  a.rectangle.area

/-- `SizeForAxis for AxisAlignedRectangle` (`axis_aligned_rectangle.rs`). -/
def AxisAlignedRectangle.size_for_axis (a : AxisAlignedRectangle) (ax : Axis) : ℚ :=
  a.rectangle.size_for_axis ax

/-- `AxisAlignedRectangle::rotate_clockwise` (`axis_aligned_rectangle.rs`):
swaps the origin's components and the extent's components. -/
def AxisAlignedRectangle.rotate_clockwise (a : AxisAlignedRectangle) : AxisAlignedRectangle :=
  ⟨⟨a.y, a.x⟩, ⟨a.height, a.width⟩⟩

/-- `rotate_counter_clockwise` default for `AxisAlignedRectangle` (`rotate.rs`). -/
def AxisAlignedRectangle.rotate_counter_clockwise (a : AxisAlignedRectangle) :
    AxisAlignedRectangle :=
  a.rotate_clockwise.rotate_clockwise.rotate_clockwise

/-- `VerticalDividingHelper for AxisAlignedRectangle`
(`axis_aligned_rectangle.rs`, `divide_vertical_helper`). -/
def AxisAlignedRectangle.divide_vertical_helper (a : AxisAlignedRectangle) (v : ℚ) :
    AxisAlignedRectangle × AxisAlignedRectangle :=
  (⟨⟨a.x, a.y⟩, ⟨v, a.height⟩⟩,
   ⟨⟨a.x + v, a.y⟩, ⟨a.width - v, a.height⟩⟩)

/-- `Dividing::divide_vertical` (`dividing.rs`): delegates to the helper. -/
def AxisAlignedRectangle.divide_vertical (a : AxisAlignedRectangle) (v : ℚ) :
    AxisAlignedRectangle × AxisAlignedRectangle :=
  a.divide_vertical_helper v

/-- `Dividing::divide_horizontal` (`dividing.rs`): rotate clockwise, divide
vertically, rotate both pieces back counter-clockwise. -/
def AxisAlignedRectangle.divide_horizontal (a : AxisAlignedRectangle) (v : ℚ) :
    AxisAlignedRectangle × AxisAlignedRectangle :=
  let rotated := a.rotate_clockwise
  let p := rotated.divide_vertical v
  (p.1.rotate_counter_clockwise, p.2.rotate_counter_clockwise)

/-- `Dividing::divide` (`dividing.rs`): dispatch on the axis. -/
def AxisAlignedRectangle.divide (a : AxisAlignedRectangle) (v : ℚ) :
    Axis → AxisAlignedRectangle × AxisAlignedRectangle
  | .Vertical => a.divide_vertical v
  | .Horizontal => a.divide_horizontal v

/-- `Dividing::divide_by_values_and_axis` (`dividing.rs`): repeatedly peel a
piece at each offset, each relative to the current remainder, then append the
remainder. -/
def AxisAlignedRectangle.divide_by_values_and_axis (a : AxisAlignedRectangle) :
    List ℚ → Axis → List AxisAlignedRectangle
  | [], _ => [a]
  | v :: vs, ax =>
      let p := a.divide v ax
      p.1 :: p.2.divide_by_values_and_axis vs ax

/-- `normalize_weights` (`weight.rs`): divide each weight by the sum. -/
def normalize_weights (weights : List ℚ) : List ℚ :=
  weights.map (fun w => w / weights.sum)

/-- `Dividing::divide_by_weights_and_axis` (`dividing.rs`): normalize, scale
by the extent along the axis, drop the last value, divide by values. -/
def AxisAlignedRectangle.divide_by_weights_and_axis (a : AxisAlignedRectangle)
    (weights : List ℚ) (ax : Axis) : List AxisAlignedRectangle :=
  if weights = [] then []
  else if weights.length = 1 then [a]
  else
    let normalized_weights := normalize_weights weights
    let size := a.size_for_axis ax
    let values := normalized_weights.map (fun w => w * size)
    a.divide_by_values_and_axis values.dropLast ax

/-- The weight-picking loop of `divide_vertical_then_horizontal_with_weights`
(`dividing.rs` lines 92-106).  The first list argument is the sequence of
weights in the order `pop()` yields them; the second is the current group of
picked weights. -/
def pick_loop (total_area hgt ar : ℚ) : List ℚ → List ℚ → List (List ℚ)
  | [], picked => if picked = [] then [] else [picked]
  | w :: rest, picked =>
      let picked' := picked ++ [w]
      let weights_in_group := picked'.sum
      let picked_area := total_area * weights_in_group
      let width := picked_area / hgt
      let first_item_height := picked'.headI / weights_in_group * hgt
      if ar ≤ width / first_item_height then
        picked' :: pick_loop total_area hgt ar rest []
      else
        pick_loop total_area hgt ar rest picked'

/-- The grouping phase of `divide_vertical_then_horizontal_with_weights`:
the code reverses the normalized weights and then pops from the end of the
vector, so the pop order is the reverse of the reversed list. -/
def grouping (total_area hgt ar : ℚ) (norm_weights : List ℚ) : List (List ℚ) :=
  pick_loop total_area hgt ar norm_weights.reverse.reverse []

/-- The band loop of `divide_vertical_then_horizontal_with_weights`
(`dividing.rs` lines 110-124): zip the vertical bands with their groups; on a
non-forward band reverse the group before dividing and reverse the pieces
after; toggle the direction only when boustrophedon is enabled. -/
def band_loop (bous : Bool) :
    Bool → List AxisAlignedRectangle → List (List ℚ) → List AxisAlignedRectangle
  | _, [], _ => []
  | _, _ :: _, [] => []
  | fwd, part :: parts, gws :: gss =>
      let ws := if fwd then gws else gws.reverse
      let hd := part.divide_by_weights_and_axis ws .Horizontal
      let hd' := if fwd then hd else hd.reverse
      hd' ++ band_loop bous (if bous then !fwd else fwd) parts gss

/-- `Dividing::divide_vertical_then_horizontal_with_weights` (`dividing.rs`). -/
def AxisAlignedRectangle.divide_vertical_then_horizontal_with_weights
    (a : AxisAlignedRectangle) (weights : List ℚ) (ar : ℚ) (bous : Bool) :
    List AxisAlignedRectangle :=
  let norm_weights := normalize_weights weights
  let total_area := a.area
  let hgt := a.height
  let dividing_weights := grouping total_area hgt ar norm_weights
  let group_weights := dividing_weights.map List.sum
  let vertical_divided := a.divide_by_weights_and_axis group_weights .Vertical
  band_loop bous true vertical_divided dividing_weights

/-- `Dividing::divide_horizontal_then_vertical_with_weights` (`dividing.rs`):
rotate clockwise, divide with the reciprocal target shape value, rotate every
piece back counter-clockwise. -/
def AxisAlignedRectangle.divide_horizontal_then_vertical_with_weights
    (a : AxisAlignedRectangle) (weights : List ℚ) (ar : ℚ) (bous : Bool) :
    List AxisAlignedRectangle :=
  let rotated := a.rotate_clockwise
  let rotated_ar := 1 / ar
  let divided := rotated.divide_vertical_then_horizontal_with_weights weights rotated_ar bous
  divided.map AxisAlignedRectangle.rotate_counter_clockwise

/-- `AxisAlignedRectangle::edges` (`axis_aligned_rectangle.rs`): the four
corner points. -/
def AxisAlignedRectangle.edges (a : AxisAlignedRectangle) : List Point :=
  [a.point,
   ⟨a.x + a.width, a.y⟩,
   ⟨a.x + a.width, a.y + a.height⟩,
   ⟨a.x, a.y + a.height⟩]

/-- `AxisAlignedRectangle::includes` (`axis_aligned_rectangle.rs`): strict
interior membership of a point. -/
def AxisAlignedRectangle.includes (a : AxisAlignedRectangle) (p : Point) : Bool :=
  decide (a.x < p.x) && decide (p.x < a.x + a.width) &&
  decide (a.y < p.y) && decide (p.y < a.y + a.height)

/-- `AxisAlignedRectangle::includes_or_on_the_boundary`
(`axis_aligned_rectangle.rs`). -/
def AxisAlignedRectangle.includes_or_on_the_boundary
    (a : AxisAlignedRectangle) (p : Point) : Bool :=
  decide (a.x ≤ p.x) && decide (p.x ≤ a.x + a.width) &&
  decide (a.y ≤ p.y) && decide (p.y ≤ a.y + a.height)

/-- `AxisAlignedRectangle::overlaps` (`axis_aligned_rectangle.rs`): some
corner of the other rectangle lies strictly inside this one. -/
def AxisAlignedRectangle.overlaps (a other : AxisAlignedRectangle) : Bool :=
  other.edges.any (fun p => a.includes p)

/-- `AxisAlignedRectangle::enclodes` (`axis_aligned_rectangle.rs`): all
corners of the other rectangle lie inside or on the boundary. -/
def AxisAlignedRectangle.enclodes (a other : AxisAlignedRectangle) : Bool :=
  other.edges.all (fun p => a.includes_or_on_the_boundary p)

/-- Which corner-bias policies ceil (rather than floor) the x coordinate:
exactly the right-biased ones. -/
def ceils_x : Edge → Bool
  | .LeftTop => false
  | .RightTop => true
  | .LeftBottom => false
  | .RightBottom => true

/-- Which corner-bias policies ceil (rather than floor) the y coordinate:
exactly the bottom-biased ones. -/
def ceils_y : Edge → Bool
  | .LeftTop => false
  | .RightTop => false
  | .LeftBottom => true
  | .RightBottom => true

/-- Modelled from the spec: the corner-bias rounding of a floating positioned
rectangle is absent from the sources (only its callers appear there), while
`Point::round` with the four bias policies is present.  Per the spec the
operation "independently floors or ceils each of the four corner coordinates
per one of four bias policies"; here the two opposite corners are rounded
with the source's `Point::round` under the chosen policy and the rectangle
is rebuilt from the rounded corners. -/
def AxisAlignedRectangle.round_with_bias (a : AxisAlignedRectangle) (e : Edge) :
    AxisAlignedRectangle :=
  let lt := a.point.round e
  let rb := (Point.mk (a.x + a.width) (a.y + a.height)).round e
  ⟨lt, ⟨rb.x - lt.x, rb.y - lt.y⟩⟩

/-- The group-closing test of the picking loop (`dividing.rs` lines 94-99):
the aspect ratio the first weight of the current group would have. -/
def close_cond (total_area hgt ar : ℚ) (g : List ℚ) : Prop :=
  ar ≤ total_area * g.sum / hgt / (g.headI / g.sum * hgt)

instance (total_area hgt ar : ℚ) (g : List ℚ) : Decidable (close_cond total_area hgt ar g) := by
  unfold close_cond
  infer_instance

/-- Modelled from the spec (forward variant of the greedy scan): add the next
unprocessed weight, starting from the FRONT of the list, to the current
group; close the group when the first item's aspect ratio reaches or exceeds
the target; close any non-empty remaining group at the end. -/
def forward_scan (total_area hgt ar : ℚ) : List ℚ → List ℚ → List (List ℚ)
  | [], g => if g = [] then [] else [g]
  | w :: rest, g =>
      let g' := g ++ [w]
      if close_cond total_area hgt ar g' then
        g' :: forward_scan total_area hgt ar rest []
      else
        forward_scan total_area hgt ar rest g'

/-- Modelled from the spec: the backward greedy reference scan.  Weights are
consumed "starting from the end of the list" and moving backward; the group
under construction is kept in original order, so each newly added weight
becomes the group's first element; the closing rule is the spec's first-item
aspect test; the emitted groups are finally put back into left-to-right
order. -/
def backward_scan_step (total_area hgt ar : ℚ) : List ℚ → List ℚ → List (List ℚ)
  | [], g => if g = [] then [] else [g]
  | w :: rest, g =>
      let g' := w :: g
      if close_cond total_area hgt ar g' then
        g' :: backward_scan_step total_area hgt ar rest []
      else
        backward_scan_step total_area hgt ar rest g'

/-- Modelled from the spec: the backward greedy scan over a weight list. -/
def backward_scan (total_area hgt ar : ℚ) (ws : List ℚ) : List (List ℚ) :=
  (backward_scan_step total_area hgt ar ws.reverse []).reverse

/-! ### Helper lemmas -/

theorem length_divide_by_values (ax : Axis) :
    ∀ (vs : List ℚ) (a : AxisAlignedRectangle),
      (a.divide_by_values_and_axis vs ax).length = vs.length + 1 := by
  intro vs
  induction vs with
  | nil => intro a; rfl
  | cons v vs ih =>
      intro a
      simp only [AxisAlignedRectangle.divide_by_values_and_axis, List.length_cons, ih]

theorem length_divide_by_weights (a : AxisAlignedRectangle) (ws : List ℚ) (ax : Axis) :
    (a.divide_by_weights_and_axis ws ax).length = ws.length := by
  unfold AxisAlignedRectangle.divide_by_weights_and_axis
  split
  · simp_all
  · split
    · simp_all
    · rename_i hne hlen
      rw [length_divide_by_values]
      simp only [List.length_dropLast, List.length_map, normalize_weights]
      have : ws.length ≠ 0 := by simpa [List.length_eq_zero] using hne
      omega

theorem divide_horizontal_eq (a : AxisAlignedRectangle) (v : ℚ) :
    a.divide_horizontal v
      = (⟨⟨a.x, a.y⟩, ⟨a.width, v⟩⟩, ⟨⟨a.x, a.y + v⟩, ⟨a.width, a.height - v⟩⟩) := by
  rfl

theorem map_shape_divide_by_values_vertical :
    ∀ (vs : List ℚ) (a : AxisAlignedRectangle),
      (a.divide_by_values_and_axis vs .Vertical).map
          (fun p => (p.width, p.height))
        = vs.map (fun v => (v, a.height)) ++ [(a.width - vs.sum, a.height)] := by
  intro vs
  induction vs with
  | nil => intro a; simp [AxisAlignedRectangle.divide_by_values_and_axis]
  | cons v vs ih =>
      intro a
      simp only [AxisAlignedRectangle.divide_by_values_and_axis,
        AxisAlignedRectangle.divide, AxisAlignedRectangle.divide_vertical,
        AxisAlignedRectangle.divide_vertical_helper, List.map_cons, List.sum_cons]
      rw [ih]
      have harith : a.rectangle.width - v - vs.sum = a.rectangle.width - (v + vs.sum) := by
        ring
      simp [AxisAlignedRectangle.width, AxisAlignedRectangle.height, harith]

theorem map_shape_divide_by_values_horizontal :
    ∀ (vs : List ℚ) (a : AxisAlignedRectangle),
      (a.divide_by_values_and_axis vs .Horizontal).map
          (fun p => (p.width, p.height))
        = vs.map (fun v => (a.width, v)) ++ [(a.width, a.height - vs.sum)] := by
  intro vs
  induction vs with
  | nil => intro a; simp [AxisAlignedRectangle.divide_by_values_and_axis]
  | cons v vs ih =>
      intro a
      simp only [AxisAlignedRectangle.divide_by_values_and_axis,
        AxisAlignedRectangle.divide, divide_horizontal_eq, List.map_cons, List.sum_cons]
      rw [ih]
      have harith : a.rectangle.height - v - vs.sum = a.rectangle.height - (v + vs.sum) := by
        ring
      simp [AxisAlignedRectangle.width, AxisAlignedRectangle.height, harith]

theorem map_xw_divide_by_values_horizontal :
    ∀ (vs : List ℚ) (a : AxisAlignedRectangle),
      (a.divide_by_values_and_axis vs .Horizontal).map (fun p => (p.x, p.width))
        = List.replicate (vs.length + 1) (a.x, a.width) := by
  intro vs
  induction vs with
  | nil => intro a; simp [AxisAlignedRectangle.divide_by_values_and_axis]
  | cons v vs ih =>
      intro a
      simp only [AxisAlignedRectangle.divide_by_values_and_axis,
        AxisAlignedRectangle.divide, divide_horizontal_eq, List.map_cons]
      rw [ih]
      simp [AxisAlignedRectangle.x, AxisAlignedRectangle.width, List.replicate_succ]

theorem sum_map_div (ws : List ℚ) (s : ℚ) :
    (ws.map (fun w => w / s)).sum = ws.sum / s := by
  have h := List.sum_map_mul_right ws (fun w => w) s⁻¹
  simpa [div_eq_mul_inv] using h

theorem map_shape_divide_by_weights_vertical (a : AxisAlignedRectangle) (ws : List ℚ)
    (hne : ws ≠ []) (hs : ws.sum ≠ 0) :
    (a.divide_by_weights_and_axis ws .Vertical).map (fun p => (p.width, p.height))
      = ws.map (fun w => (w / ws.sum * a.width, a.height)) := by
  unfold AxisAlignedRectangle.divide_by_weights_and_axis
  split
  · simp_all
  · split
    · rename_i hlen
      obtain ⟨w, rfl⟩ := List.length_eq_one.mp hlen
      have hw : w ≠ 0 := by simpa using hs
      simp [div_self hw]
    · dsimp only
      have hvals : (normalize_weights ws).map
          (fun w => w * a.size_for_axis .Vertical)
          = ws.map (fun w => w / ws.sum * a.width) := by
        simp only [normalize_weights, List.map_map]
        rfl
      rw [hvals, map_shape_divide_by_values_vertical]
      set vals := ws.map (fun w => w / ws.sum * a.width) with hvals_def
      have hvne : vals ≠ [] := by
        simp [hvals_def, hne]
      have hvsum : vals.sum = a.width := by
        rw [hvals_def]
        have h3 : (ws.map fun w => w / ws.sum * a.width).sum
            = (ws.map fun w => w / ws.sum).sum * a.width :=
          List.sum_map_mul_right ws (fun w => w / ws.sum) a.width
        rw [h3, sum_map_div, div_self hs, one_mul]
      have hsplit : vals.dropLast ++ [vals.getLast hvne] = vals :=
        List.dropLast_append_getLast hvne
      have hlast : a.width - vals.dropLast.sum = vals.getLast hvne := by
        have h4 : (vals.dropLast ++ [vals.getLast hvne]).sum = vals.sum := by rw [hsplit]
        simp only [List.sum_append, List.sum_cons, List.sum_nil, add_zero] at h4
        rw [hvsum] at h4
        linarith
      rw [hlast]
      calc vals.dropLast.map (fun v => (v, a.height)) ++ [(vals.getLast hvne, a.height)]
          = (vals.dropLast ++ [vals.getLast hvne]).map (fun v => (v, a.height)) := by
            rw [List.map_append]; rfl
        _ = vals.map (fun v => (v, a.height)) := by rw [hsplit]
        _ = ws.map (fun w => (w / ws.sum * a.width, a.height)) := by
            rw [hvals_def, List.map_map]
            rfl

theorem map_shape_divide_by_weights_horizontal (a : AxisAlignedRectangle) (ws : List ℚ)
    (hne : ws ≠ []) (hs : ws.sum ≠ 0) :
    (a.divide_by_weights_and_axis ws .Horizontal).map (fun p => (p.width, p.height))
      = ws.map (fun w => (a.width, w / ws.sum * a.height)) := by
  unfold AxisAlignedRectangle.divide_by_weights_and_axis
  split
  · simp_all
  · split
    · rename_i hlen
      obtain ⟨w, rfl⟩ := List.length_eq_one.mp hlen
      have hw : w ≠ 0 := by simpa using hs
      simp [div_self hw]
    · dsimp only
      have hvals : (normalize_weights ws).map
          (fun w => w * a.size_for_axis .Horizontal)
          = ws.map (fun w => w / ws.sum * a.height) := by
        simp only [normalize_weights, List.map_map]
        rfl
      rw [hvals, map_shape_divide_by_values_horizontal]
      set vals := ws.map (fun w => w / ws.sum * a.height) with hvals_def
      have hvne : vals ≠ [] := by
        simp [hvals_def, hne]
      have hvsum : vals.sum = a.height := by
        rw [hvals_def]
        have h3 : (ws.map fun w => w / ws.sum * a.height).sum
            = (ws.map fun w => w / ws.sum).sum * a.height :=
          List.sum_map_mul_right ws (fun w => w / ws.sum) a.height
        rw [h3, sum_map_div, div_self hs, one_mul]
      have hsplit : vals.dropLast ++ [vals.getLast hvne] = vals :=
        List.dropLast_append_getLast hvne
      have hlast : a.height - vals.dropLast.sum = vals.getLast hvne := by
        have h4 : (vals.dropLast ++ [vals.getLast hvne]).sum = vals.sum := by rw [hsplit]
        simp only [List.sum_append, List.sum_cons, List.sum_nil, add_zero] at h4
        rw [hvsum] at h4
        linarith
      rw [hlast]
      calc vals.dropLast.map (fun v => (a.width, v)) ++ [(a.width, vals.getLast hvne)]
          = (vals.dropLast ++ [vals.getLast hvne]).map (fun v => (a.width, v)) := by
            rw [List.map_append]; rfl
        _ = vals.map (fun v => (a.width, v)) := by rw [hsplit]
        _ = ws.map (fun w => (a.width, w / ws.sum * a.height)) := by
            rw [hvals_def, List.map_map]
            rfl

theorem map_area_divide_by_weights_horizontal (a : AxisAlignedRectangle) (ws : List ℚ)
    (hne : ws ≠ []) (hs : ws.sum ≠ 0) :
    (a.divide_by_weights_and_axis ws .Horizontal).map AxisAlignedRectangle.area
      = ws.map (fun w => a.width * (w / ws.sum * a.height)) := by
  have h := map_shape_divide_by_weights_horizontal a ws hne hs
  calc (a.divide_by_weights_and_axis ws .Horizontal).map AxisAlignedRectangle.area
      = ((a.divide_by_weights_and_axis ws .Horizontal).map
          (fun p => (p.width, p.height))).map (fun pr => pr.1 * pr.2) := by
        rw [List.map_map]; rfl
    _ = (ws.map (fun w => (a.width, w / ws.sum * a.height))).map (fun pr => pr.1 * pr.2) := by
        rw [h]
    _ = ws.map (fun w => a.width * (w / ws.sum * a.height)) := by
        rw [List.map_map]; rfl

theorem map_area_rev_divide_by_weights_horizontal (a : AxisAlignedRectangle) (ws : List ℚ)
    (hne : ws ≠ []) (hs : ws.sum ≠ 0) :
    ((a.divide_by_weights_and_axis ws.reverse .Horizontal).reverse).map
        AxisAlignedRectangle.area
      = ws.map (fun w => a.width * (w / ws.sum * a.height)) := by
  have hne' : ws.reverse ≠ [] := by simpa using hne
  have hs' : ws.reverse.sum ≠ 0 := by rw [List.sum_reverse]; exact hs
  have h := map_area_divide_by_weights_horizontal a ws.reverse hne' hs'
  rw [List.sum_reverse] at h
  rw [List.map_reverse, h, ← List.map_reverse, List.reverse_reverse]

theorem map_xw_divide_by_weights_horizontal (a : AxisAlignedRectangle) (ws : List ℚ) :
    (a.divide_by_weights_and_axis ws .Horizontal).map (fun p => (p.x, p.width))
      = List.replicate ws.length (a.x, a.width) := by
  unfold AxisAlignedRectangle.divide_by_weights_and_axis
  split
  · simp_all
  · split
    · rename_i hlen
      obtain ⟨w, rfl⟩ := List.length_eq_one.mp hlen
      simp
    · rename_i hnil hlen
      dsimp only
      rw [map_xw_divide_by_values_horizontal]
      congr 1
      simp only [List.length_dropLast, List.length_map, normalize_weights]
      have : ws.length ≠ 0 := by simpa [List.length_eq_zero] using hnil
      omega

theorem band_loop_map_area (W H : ℚ) (bous : Bool) :
    ∀ (gss : List (List ℚ)) (bands : List AxisAlignedRectangle) (fwd : Bool),
      bands.map (fun p => (p.width, p.height)) = gss.map (fun g => (g.sum * W, H)) →
      (∀ g ∈ gss, g ≠ [] ∧ g.sum ≠ 0) →
      (band_loop bous fwd bands gss).map AxisAlignedRectangle.area
        = gss.flatten.map (fun v => v * (W * H)) := by
  intro gss
  induction gss with
  | nil =>
      intro bands fwd h1 h2
      have hb : bands = [] := by simpa using h1
      subst hb
      rfl
  | cons g gss ih =>
      intro bands fwd h1 h2
      cases bands with
      | nil => simp at h1
      | cons b bs =>
          simp only [List.map_cons, List.cons.injEq, Prod.mk.injEq] at h1
          obtain ⟨⟨hbw, hbh⟩, htail⟩ := h1
          obtain ⟨hgne, hgs⟩ := h2 g (by simp)
          have hpoint : ∀ v ∈ g, b.width * (v / g.sum * b.height) = v * (W * H) := by
            intro v hv
            rw [hbw, hbh]
            field_simp
            ring
          have htail2 : ∀ g' ∈ gss, g' ≠ [] ∧ g'.sum ≠ 0 := by
            intro g' hg'
            exact h2 g' (by simp [hg'])
          simp only [band_loop, List.flatten_cons, List.map_append]
          by_cases hf : fwd = true
          · simp only [hf, if_true]
            rw [map_area_divide_by_weights_horizontal b g hgne hgs,
              ih bs _ htail htail2]
            congr 1
            exact List.map_congr_left hpoint
          · simp only [hf, Bool.false_eq_true, if_false]
            rw [map_area_rev_divide_by_weights_horizontal b g hgne hgs,
              ih bs _ htail htail2]
            congr 1
            exact List.map_congr_left hpoint

theorem map_xw_band (b : AxisAlignedRectangle) (g : List ℚ) (f : Bool) :
    ((if f = true then
        b.divide_by_weights_and_axis (if f = true then g else g.reverse) .Horizontal
      else
        (b.divide_by_weights_and_axis
          (if f = true then g else g.reverse) .Horizontal).reverse)).map
        (fun p => (p.x, p.width))
      = List.replicate g.length (b.x, b.width) := by
  by_cases hf : f = true
  · simp only [hf, if_true]
    exact map_xw_divide_by_weights_horizontal b g
  · simp only [hf, Bool.false_eq_true, if_false]
    rw [List.map_reverse, map_xw_divide_by_weights_horizontal b g.reverse,
      List.reverse_replicate, List.length_reverse]

theorem band_loop_map_xw :
    ∀ (gss : List (List ℚ)) (bands : List AxisAlignedRectangle)
      (bous bous' fwd fwd' : Bool),
      (band_loop bous fwd bands gss).map (fun p => (p.x, p.width))
        = (band_loop bous' fwd' bands gss).map (fun p => (p.x, p.width)) := by
  intro gss
  induction gss with
  | nil =>
      intro bands bous bous' fwd fwd'
      cases bands <;> rfl
  | cons g gss ih =>
      intro bands bous bous' fwd fwd'
      cases bands with
      | nil => rfl
      | cons b bs =>
          simp only [band_loop, List.map_append]
          rw [map_xw_band b g fwd, map_xw_band b g fwd', ih bs bous bous' _ _]

theorem area_rotate_clockwise (p : AxisAlignedRectangle) :
    p.rotate_clockwise.area = p.area := by
  simp only [AxisAlignedRectangle.rotate_clockwise, AxisAlignedRectangle.area,
    Rectangle.area, AxisAlignedRectangle.width, AxisAlignedRectangle.height]
  ring

theorem area_rotate_counter_clockwise (p : AxisAlignedRectangle) :
    p.rotate_counter_clockwise.area = p.area := by
  simp only [AxisAlignedRectangle.rotate_counter_clockwise, AxisAlignedRectangle.rotate_clockwise,
    AxisAlignedRectangle.area, Rectangle.area, AxisAlignedRectangle.width,
    AxisAlignedRectangle.height]
  ring

theorem pick_loop_eq_forward_scan (ta hh ar : ℚ) :
    ∀ (l g : List ℚ), pick_loop ta hh ar l g = forward_scan ta hh ar l g := by
  intro l
  induction l with
  | nil => intro g; rfl
  | cons w rest ih =>
      intro g
      simp only [pick_loop, forward_scan, close_cond]
      split
      · rw [ih]
      · rw [ih]

theorem pick_loop_flatten (ta hh ar : ℚ) :
    ∀ (l g : List ℚ), (pick_loop ta hh ar l g).flatten = g ++ l := by
  intro l
  induction l with
  | nil =>
      intro g
      simp only [pick_loop]
      split
      · simp_all
      · simp
  | cons w rest ih =>
      intro g
      simp only [pick_loop]
      split
      · simp [ih]
      · simp [ih]

theorem pick_loop_ne_nil (ta hh ar : ℚ) :
    ∀ (l g gg : List ℚ), gg ∈ pick_loop ta hh ar l g → gg ≠ [] := by
  intro l
  induction l with
  | nil =>
      intro g gg hm
      simp only [pick_loop] at hm
      split at hm
      · simp at hm
      · rename_i hg
        simp at hm
        simpa [hm] using hg
  | cons w rest ih =>
      intro g gg hm
      simp only [pick_loop] at hm
      split at hm
      · rcases List.mem_cons.mp hm with h | h
        · simp [h]
        · exact ih [] gg h
      · exact ih (g ++ [w]) gg hm

theorem pick_loop_dropLast_cond (ta hh ar : ℚ) :
    ∀ (l g : List ℚ), ∀ gg ∈ (pick_loop ta hh ar l g).dropLast, close_cond ta hh ar gg := by
  intro l
  induction l with
  | nil =>
      intro g gg hm
      simp only [pick_loop] at hm
      split at hm <;> simp at hm
  | cons w rest ih =>
      intro g gg hm
      simp only [pick_loop] at hm
      split at hm
      · rename_i hcond
        rcases hrest : pick_loop ta hh ar rest [] with _ | ⟨b, bs⟩
        · rw [hrest] at hm
          simp at hm
        · rw [hrest, List.dropLast_cons₂] at hm
          rcases List.mem_cons.mp hm with h | h
          · rw [h]
            exact hcond
          · exact ih [] gg (by rw [hrest]; exact h)
      · exact ih (g ++ [w]) gg hm

theorem pick_loop_take_fail (ta hh ar : ℚ) :
    ∀ (l g : List ℚ),
      (∀ k, 0 < k → k ≤ g.length → ¬ close_cond ta hh ar (g.take k)) →
      ∀ gg ∈ pick_loop ta hh ar l g,
        ∀ k, 0 < k → k < gg.length → ¬ close_cond ta hh ar (gg.take k) := by
  intro l
  induction l with
  | nil =>
      intro g hg gg hm k hk hklt
      simp only [pick_loop] at hm
      split at hm
      · simp at hm
      · simp at hm
        subst hm
        exact hg k hk (le_of_lt hklt)
  | cons w rest ih =>
      intro g hg gg hm k hk hklt
      have htake : ∀ j, j ≤ g.length → (g ++ [w]).take j = g.take j := by
        intro j hj
        rw [List.take_append_eq_append_take]
        have : j - g.length = 0 := by omega
        simp [this]
      simp only [pick_loop] at hm
      split at hm
      · rename_i hcond
        rcases List.mem_cons.mp hm with h | h
        · subst h
          have hkg : k ≤ g.length := by
            have := hklt
            simp only [List.length_append, List.length_singleton] at this
            omega
          rw [htake k hkg]
          exact hg k hk hkg
        · refine ih [] ?_ gg h k hk hklt
          intro j hj hj2
          exfalso
          simp only [List.length_nil] at hj2
          omega
      · rename_i hncond
        refine ih (g ++ [w]) ?_ gg hm k hk hklt
        intro j hj hj2
        simp only [List.length_append, List.length_singleton] at hj2
        rcases Nat.lt_or_ge j (g.length + 1) with hlt | hge
        · have h1 : j ≤ g.length := by omega
          rw [htake j h1]
          exact hg j hj h1
        · have h2 : j = g.length + 1 := by omega
          have hfull : (g ++ [w]).take j = g ++ [w] := by
            apply List.take_of_length_le
            simp [h2]
          rw [hfull]
          exact hncond

theorem grouping_flatten (ta hh ar : ℚ) (ws : List ℚ) :
    (grouping ta hh ar ws).flatten = ws := by
  unfold grouping
  rw [List.reverse_reverse]
  simpa using pick_loop_flatten ta hh ar ws []

theorem grouping_ne_nil (ta hh ar : ℚ) (ws : List ℚ) :
    ∀ g ∈ grouping ta hh ar ws, g ≠ [] := by
  unfold grouping
  rw [List.reverse_reverse]
  intro g hg
  exact pick_loop_ne_nil ta hh ar ws [] g hg

theorem map_area_vtH (a : AxisAlignedRectangle) (ws : List ℚ) (ar : ℚ) (b : Bool)
    (hne : ws ≠ []) (hpos : ∀ w ∈ ws, 0 < w) :
    (a.divide_vertical_then_horizontal_with_weights ws ar b).map AxisAlignedRectangle.area
      = ws.map (fun w => w / ws.sum * a.area) := by
  have hsum : 0 < ws.sum := List.sum_pos ws hpos hne
  have hsne : ws.sum ≠ 0 := ne_of_gt hsum
  unfold AxisAlignedRectangle.divide_vertical_then_horizontal_with_weights
  dsimp only
  set nw := normalize_weights ws with hnw
  have hnwsum : nw.sum = 1 := by
    rw [hnw]
    unfold normalize_weights
    rw [sum_map_div, div_self hsne]
  have hnwne : nw ≠ [] := by simp [hnw, normalize_weights, hne]
  set gs := grouping a.area a.height ar nw with hgs
  have hflat : gs.flatten = nw := grouping_flatten _ _ _ _
  have hgne : ∀ g ∈ gs, g ≠ [] := grouping_ne_nil _ _ _ _
  have hmem : ∀ g ∈ gs, ∀ v ∈ g, 0 < v := by
    intro g hg v hv
    have hvnw : v ∈ nw := by
      rw [← hflat]
      exact List.mem_flatten.mpr ⟨g, hg, hv⟩
    rw [hnw] at hvnw
    unfold normalize_weights at hvnw
    obtain ⟨w, hwmem, rfl⟩ := List.mem_map.mp hvnw
    exact div_pos (hpos w hwmem) hsum
  have hcond : ∀ g ∈ gs, g ≠ [] ∧ g.sum ≠ 0 := by
    intro g hg
    exact ⟨hgne g hg, ne_of_gt (List.sum_pos g (hmem g hg) (hgne g hg))⟩
  have hgwsum : (gs.map List.sum).sum = 1 := by
    rw [← List.sum_flatten, hflat, hnwsum]
  have hgsne : gs ≠ [] := by
    intro h
    rw [h] at hflat
    exact hnwne (by simpa using hflat.symm)
  have hgwne : gs.map List.sum ≠ [] := by simpa using hgsne
  have hvshape := map_shape_divide_by_weights_vertical a (gs.map List.sum) hgwne
    (by rw [hgwsum]; norm_num)
  rw [hgwsum] at hvshape
  simp only [div_one] at hvshape
  rw [List.map_map] at hvshape
  have hvshape2 : (a.divide_by_weights_and_axis (gs.map List.sum) .Vertical).map
      (fun p => (p.width, p.height)) = gs.map (fun g => (g.sum * a.width, a.height)) := by
    rw [hvshape]
    rfl
  rw [band_loop_map_area a.width a.height b gs _ true hvshape2 hcond, hflat, hnw]
  unfold normalize_weights
  rw [List.map_map]
  rfl

theorem map_area_htV (a : AxisAlignedRectangle) (ws : List ℚ) (ar : ℚ) (b : Bool)
    (hne : ws ≠ []) (hpos : ∀ w ∈ ws, 0 < w) :
    (a.divide_horizontal_then_vertical_with_weights ws ar b).map AxisAlignedRectangle.area
      = ws.map (fun w => w / ws.sum * a.area) := by
  unfold AxisAlignedRectangle.divide_horizontal_then_vertical_with_weights
  dsimp only
  rw [List.map_map]
  have hcomp : AxisAlignedRectangle.area ∘ AxisAlignedRectangle.rotate_counter_clockwise
      = AxisAlignedRectangle.area := by
    funext p
    exact area_rotate_counter_clockwise p
  rw [hcomp, map_area_vtH (a.rotate_clockwise) ws (1 / ar) b hne hpos]
  simp only [area_rotate_clockwise]

theorem map_xw_vtH_flag (a : AxisAlignedRectangle) (ws : List ℚ) (ar : ℚ) (b b' : Bool) :
    (a.divide_vertical_then_horizontal_with_weights ws ar b).map (fun p => (p.x, p.width))
      = (a.divide_vertical_then_horizontal_with_weights ws ar b').map
          (fun p => (p.x, p.width)) := by
  unfold AxisAlignedRectangle.divide_vertical_then_horizontal_with_weights
  dsimp only
  exact band_loop_map_xw _ _ b b' true true

theorem map_yh_htV_flag (a : AxisAlignedRectangle) (ws : List ℚ) (ar : ℚ) (b b' : Bool) :
    (a.divide_horizontal_then_vertical_with_weights ws ar b).map (fun p => (p.y, p.height))
      = (a.divide_horizontal_then_vertical_with_weights ws ar b').map
          (fun p => (p.y, p.height)) := by
  unfold AxisAlignedRectangle.divide_horizontal_then_vertical_with_weights
  dsimp only
  rw [List.map_map, List.map_map]
  exact map_xw_vtH_flag (a.rotate_clockwise) ws (1 / ar) b b'

/-! ### Claim theorems -/

/-- Claim C5: dividing along either axis at offset v yields pieces whose
extents along the split axis sum to the original extent, whose extents along
the other axis are unchanged, with the first piece keeping the original
origin, the first piece's split-axis extent equal to v, and the second
piece's origin displaced by exactly v along the split axis (and unchanged
along the other axis). -/
theorem claim_C5 (a : AxisAlignedRectangle) (v : ℚ) (ax : Axis) :
    (a.divide v ax).1.size_for_axis ax + (a.divide v ax).2.size_for_axis ax
        = a.size_for_axis ax
    ∧ (a.divide v ax).1.size_for_axis ax.opposite = a.size_for_axis ax.opposite
    ∧ (a.divide v ax).2.size_for_axis ax.opposite = a.size_for_axis ax.opposite
    ∧ (a.divide v ax).1.point = a.point
    ∧ (a.divide v ax).1.size_for_axis ax = v
    ∧ (a.divide v ax).2.point.value_for_axis ax = a.point.value_for_axis ax + v
    ∧ (a.divide v ax).2.point.value_for_axis ax.opposite
        = a.point.value_for_axis ax.opposite := by
  cases ax <;>
    simp [AxisAlignedRectangle.divide, AxisAlignedRectangle.divide_vertical,
      AxisAlignedRectangle.divide_horizontal, AxisAlignedRectangle.divide_vertical_helper,
      AxisAlignedRectangle.rotate_clockwise, AxisAlignedRectangle.rotate_counter_clockwise,
      AxisAlignedRectangle.size_for_axis, Rectangle.size_for_axis, Axis.opposite,
      Point.value_for_axis, AxisAlignedRectangle.x, AxisAlignedRectangle.y,
      AxisAlignedRectangle.width, AxisAlignedRectangle.height]

/-- Claim C6: `divide_by_weights_and_axis` returns exactly as many pieces as
there are weights; the empty weight list yields the empty list, and a single
weight yields the original rectangle unsplit. -/
theorem claim_C6 (a : AxisAlignedRectangle) (ws : List ℚ) (ax : Axis) :
    (a.divide_by_weights_and_axis ws ax).length = ws.length
    ∧ (ws = [] → a.divide_by_weights_and_axis ws ax = [])
    ∧ (∀ w : ℚ, ws = [w] → a.divide_by_weights_and_axis ws ax = [a]) := by
  refine ⟨length_divide_by_weights a ws ax, ?_, ?_⟩
  · intro h
    simp [AxisAlignedRectangle.divide_by_weights_and_axis, h]
  · intro w h
    simp [AxisAlignedRectangle.divide_by_weights_and_axis, h]

/-- Claim C10: `rotate_clockwise` is an involution on points, extents and
positioned rectangles, and `rotate_counter_clockwise` (three clockwise
rotations) therefore equals a single clockwise rotation. -/
theorem claim_C10 (p : Point) (r : Rectangle) (a : AxisAlignedRectangle) :
    (p.rotate_clockwise.rotate_clockwise = p
      ∧ p.rotate_counter_clockwise = p.rotate_clockwise)
    ∧ (r.rotate_clockwise.rotate_clockwise = r
      ∧ r.rotate_counter_clockwise = r.rotate_clockwise)
    ∧ (a.rotate_clockwise.rotate_clockwise = a
      ∧ a.rotate_counter_clockwise = a.rotate_clockwise) := by
  exact ⟨⟨rfl, rfl⟩, ⟨rfl, rfl⟩, ⟨rfl, rfl⟩⟩

/-- Claim C9 (evaluation at the failing input): dividing the 4-by-2 rectangle
at the origin by the precondition-violating weights [3, -1] returns an
ordinary two-element list whose second rectangle has negative width; no
failure value is surfaced. -/
theorem claim_C9_eval :
    (⟨⟨0, 0⟩, ⟨4, 2⟩⟩ : AxisAlignedRectangle).divide_by_weights_and_axis [3, -1] .Vertical
      = [⟨⟨0, 0⟩, ⟨6, 2⟩⟩, ⟨⟨6, 0⟩, ⟨-2, 2⟩⟩]
    ∧ ((⟨⟨6, 0⟩, ⟨-2, 2⟩⟩ : AxisAlignedRectangle).width < 0) := by
  constructor
  · norm_num [AxisAlignedRectangle.divide_by_weights_and_axis, normalize_weights,
      AxisAlignedRectangle.size_for_axis, Rectangle.size_for_axis,
      AxisAlignedRectangle.divide_by_values_and_axis, AxisAlignedRectangle.divide,
      AxisAlignedRectangle.divide_vertical, AxisAlignedRectangle.divide_vertical_helper,
      AxisAlignedRectangle.x, AxisAlignedRectangle.y, AxisAlignedRectangle.width,
      AxisAlignedRectangle.height, List.dropLast]
    intro h
    exact absurd h (by simp)
  · norm_num [AxisAlignedRectangle.width]

/-- Claim C1: for every rectangle with positive width and height and every
non-empty list of positive weights, both orientation variants return, at each
index i, a rectangle whose area equals (weight i / sum of weights) times the
source rectangle's area, exactly; consequently the areas sum to the source
area. -/
theorem claim_C1 (a : AxisAlignedRectangle) (ws : List ℚ) (ar : ℚ) (b : Bool)
    (hne : ws ≠ []) (hpos : ∀ w ∈ ws, 0 < w)
    (hw : 0 < a.width) (hh : 0 < a.height) :
    (a.divide_vertical_then_horizontal_with_weights ws ar b).map AxisAlignedRectangle.area
        = ws.map (fun w => w / ws.sum * a.area)
    ∧ (a.divide_horizontal_then_vertical_with_weights ws ar b).map AxisAlignedRectangle.area
        = ws.map (fun w => w / ws.sum * a.area)
    ∧ ((a.divide_vertical_then_horizontal_with_weights ws ar b).map
        AxisAlignedRectangle.area).sum = a.area := by
  have hsne : ws.sum ≠ 0 := ne_of_gt (List.sum_pos ws hpos hne)
  refine ⟨map_area_vtH a ws ar b hne hpos, map_area_htV a ws ar b hne hpos, ?_⟩
  rw [map_area_vtH a ws ar b hne hpos]
  have h := List.sum_map_mul_right ws (fun w => w / ws.sum) a.area
  rw [h, sum_map_div, div_self hsne, one_mul]

/-- Witness for claim C1 at a concrete input: the 2-by-3 rectangle at the
origin with weights [1, 2]. -/
theorem claim_C1_witness :
    (([1, 2] : List ℚ) ≠ [])
    ∧ (∀ w ∈ ([1, 2] : List ℚ), 0 < w)
    ∧ (0 < (⟨⟨0, 0⟩, ⟨2, 3⟩⟩ : AxisAlignedRectangle).width)
    ∧ (0 < (⟨⟨0, 0⟩, ⟨2, 3⟩⟩ : AxisAlignedRectangle).height)
    ∧ ((⟨⟨0, 0⟩, ⟨2, 3⟩⟩ : AxisAlignedRectangle).divide_vertical_then_horizontal_with_weights
          [1, 2] 1 false).map AxisAlignedRectangle.area
        = ([1, 2] : List ℚ).map
            (fun w => w / ([1, 2] : List ℚ).sum
              * (⟨⟨0, 0⟩, ⟨2, 3⟩⟩ : AxisAlignedRectangle).area)
    ∧ ((⟨⟨0, 0⟩, ⟨2, 3⟩⟩ : AxisAlignedRectangle).divide_horizontal_then_vertical_with_weights
          [1, 2] 1 false).map AxisAlignedRectangle.area
        = ([1, 2] : List ℚ).map
            (fun w => w / ([1, 2] : List ℚ).sum
              * (⟨⟨0, 0⟩, ⟨2, 3⟩⟩ : AxisAlignedRectangle).area)
    ∧ (((⟨⟨0, 0⟩, ⟨2, 3⟩⟩ : AxisAlignedRectangle).divide_vertical_then_horizontal_with_weights
          [1, 2] 1 false).map AxisAlignedRectangle.area).sum
        = (⟨⟨0, 0⟩, ⟨2, 3⟩⟩ : AxisAlignedRectangle).area := by
  have hpos : ∀ w ∈ ([1, 2] : List ℚ), 0 < w := by
    intro w hw
    simp only [List.mem_cons, List.mem_singleton] at hw
    rcases hw with rfl | rfl | hw
    · norm_num
    · norm_num
    · simp at hw
  have h := claim_C1 ⟨⟨0, 0⟩, ⟨2, 3⟩⟩ [1, 2] 1 false (by simp) hpos
    (by norm_num [AxisAlignedRectangle.width])
    (by norm_num [AxisAlignedRectangle.height])
  exact ⟨by simp, hpos, by norm_num [AxisAlignedRectangle.width],
    by norm_num [AxisAlignedRectangle.height], h.1, h.2.1, h.2.2⟩

/-- Claim C4: with positive weights, output rectangle i has the same area
whether boustrophedon is enabled or not, in both orientations; moreover the
band-level placement data per index — (x, width) for the vertical-major
variant, (y, height) for the horizontal-major variant — is unchanged by the
flag, so boustrophedon only moves pieces within their band and never changes
the index-to-weight mapping. -/
theorem claim_C4 (a : AxisAlignedRectangle) (ws : List ℚ) (ar : ℚ)
    (hpos : ∀ w ∈ ws, 0 < w) :
    (a.divide_vertical_then_horizontal_with_weights ws ar true).map
        AxisAlignedRectangle.area
      = (a.divide_vertical_then_horizontal_with_weights ws ar false).map
          AxisAlignedRectangle.area
    ∧ (a.divide_horizontal_then_vertical_with_weights ws ar true).map
        AxisAlignedRectangle.area
      = (a.divide_horizontal_then_vertical_with_weights ws ar false).map
          AxisAlignedRectangle.area
    ∧ (a.divide_vertical_then_horizontal_with_weights ws ar true).map
        (fun p => (p.x, p.width))
      = (a.divide_vertical_then_horizontal_with_weights ws ar false).map
          (fun p => (p.x, p.width))
    ∧ (a.divide_horizontal_then_vertical_with_weights ws ar true).map
        (fun p => (p.y, p.height))
      = (a.divide_horizontal_then_vertical_with_weights ws ar false).map
          (fun p => (p.y, p.height)) := by
  refine ⟨?_, ?_, map_xw_vtH_flag a ws ar true false, map_yh_htV_flag a ws ar true false⟩
  · by_cases hne : ws = []
    · subst hne
      rfl
    · rw [map_area_vtH a ws ar true hne hpos, map_area_vtH a ws ar false hne hpos]
  · by_cases hne : ws = []
    · subst hne
      rfl
    · rw [map_area_htV a ws ar true hne hpos, map_area_htV a ws ar false hne hpos]

/-- Witness for claim C4 at a concrete input: the unit square with weights
[1, 2] and target 1. -/
theorem claim_C4_witness :
    (∀ w ∈ ([1, 2] : List ℚ), 0 < w)
    ∧ ((⟨⟨0, 0⟩, ⟨1, 1⟩⟩ : AxisAlignedRectangle).divide_vertical_then_horizontal_with_weights
          [1, 2] 1 true).map AxisAlignedRectangle.area
        = ((⟨⟨0, 0⟩, ⟨1, 1⟩⟩ : AxisAlignedRectangle).divide_vertical_then_horizontal_with_weights
            [1, 2] 1 false).map AxisAlignedRectangle.area
    ∧ ((⟨⟨0, 0⟩, ⟨1, 1⟩⟩ : AxisAlignedRectangle).divide_horizontal_then_vertical_with_weights
          [1, 2] 1 true).map AxisAlignedRectangle.area
        = ((⟨⟨0, 0⟩, ⟨1, 1⟩⟩ : AxisAlignedRectangle).divide_horizontal_then_vertical_with_weights
            [1, 2] 1 false).map AxisAlignedRectangle.area := by
  have hpos : ∀ w ∈ ([1, 2] : List ℚ), 0 < w := by
    intro w hw
    simp only [List.mem_cons, List.mem_singleton] at hw
    rcases hw with rfl | rfl | hw
    · norm_num
    · norm_num
    · simp at hw
  have h := claim_C4 ⟨⟨0, 0⟩, ⟨1, 1⟩⟩ [1, 2] 1 hpos
  exact ⟨hpos, h.1, h.2.1⟩

/-- Claim C7: Example B — dividing the 9-by-8 rectangle at the origin by
weights [4, 4, 1, 1, 1, 1] with target 3/2 in vertical-major orientation
yields exactly the two 6-by-4 column pieces at (0,0) and (0,4) followed by
four 3-by-2 pieces; the areas are proportional to the weights and no two
pieces overlap (under the source's corner-based overlap test, both ways). -/
theorem claim_C7 :
    (⟨⟨0, 0⟩, ⟨9, 8⟩⟩ : AxisAlignedRectangle).divide_vertical_then_horizontal_with_weights
        [4, 4, 1, 1, 1, 1] (3/2) false
      = [⟨⟨0, 0⟩, ⟨6, 4⟩⟩, ⟨⟨0, 4⟩, ⟨6, 4⟩⟩, ⟨⟨6, 0⟩, ⟨3, 2⟩⟩, ⟨⟨6, 2⟩, ⟨3, 2⟩⟩,
         ⟨⟨6, 4⟩, ⟨3, 2⟩⟩, ⟨⟨6, 6⟩, ⟨3, 2⟩⟩]
    ∧ ([⟨⟨0, 0⟩, ⟨6, 4⟩⟩, ⟨⟨0, 4⟩, ⟨6, 4⟩⟩, ⟨⟨6, 0⟩, ⟨3, 2⟩⟩, ⟨⟨6, 2⟩, ⟨3, 2⟩⟩,
        ⟨⟨6, 4⟩, ⟨3, 2⟩⟩, ⟨⟨6, 6⟩, ⟨3, 2⟩⟩] : List AxisAlignedRectangle).map
          AxisAlignedRectangle.area
        = ([4, 4, 1, 1, 1, 1] : List ℚ).map
            (fun w => w / ([4, 4, 1, 1, 1, 1] : List ℚ).sum
              * (⟨⟨0, 0⟩, ⟨9, 8⟩⟩ : AxisAlignedRectangle).area)
    ∧ List.Pairwise (fun p q => p.overlaps q = false ∧ q.overlaps p = false)
        ([⟨⟨0, 0⟩, ⟨6, 4⟩⟩, ⟨⟨0, 4⟩, ⟨6, 4⟩⟩, ⟨⟨6, 0⟩, ⟨3, 2⟩⟩, ⟨⟨6, 2⟩, ⟨3, 2⟩⟩,
          ⟨⟨6, 4⟩, ⟨3, 2⟩⟩, ⟨⟨6, 6⟩, ⟨3, 2⟩⟩] : List AxisAlignedRectangle) := by
  refine ⟨?_, ?_, ?_⟩
  · norm_num [AxisAlignedRectangle.divide_vertical_then_horizontal_with_weights,
      grouping, pick_loop, normalize_weights, band_loop,
      AxisAlignedRectangle.divide_by_weights_and_axis,
      AxisAlignedRectangle.divide_by_values_and_axis,
      AxisAlignedRectangle.divide, AxisAlignedRectangle.divide_vertical,
      AxisAlignedRectangle.divide_horizontal, AxisAlignedRectangle.divide_vertical_helper,
      AxisAlignedRectangle.rotate_clockwise, AxisAlignedRectangle.rotate_counter_clockwise,
      AxisAlignedRectangle.size_for_axis, Rectangle.size_for_axis,
      AxisAlignedRectangle.area, Rectangle.area,
      AxisAlignedRectangle.x, AxisAlignedRectangle.y, AxisAlignedRectangle.width,
      AxisAlignedRectangle.height, List.dropLast]
    simp
  · norm_num [AxisAlignedRectangle.area, Rectangle.area]
  · norm_num [List.pairwise_cons, AxisAlignedRectangle.overlaps, AxisAlignedRectangle.edges,
      AxisAlignedRectangle.includes, AxisAlignedRectangle.x, AxisAlignedRectangle.y,
      AxisAlignedRectangle.width, AxisAlignedRectangle.height]

/-- Claim C2 counterexample: on the unit square (total area 1, height 1) with
target shape value 1/2 and weights [1, 2], the code's grouping phase yields
the single group [[1/3, 2/3]], while the spec's backward greedy reference
scan (consuming from the last weight toward the first) yields the two groups
[[1/3], [2/3]]; so the grouping phase does not consume weights backward. -/
theorem claim_C2_counterexample :
    grouping 1 1 (1/2) (normalize_weights [1, 2]) = [[1/3, 2/3]]
    ∧ backward_scan 1 1 (1/2) (normalize_weights [1, 2]) = [[1/3], [2/3]]
    ∧ grouping 1 1 (1/2) (normalize_weights [1, 2])
        ≠ backward_scan 1 1 (1/2) (normalize_weights [1, 2]) := by
  have h1 : grouping 1 1 (1/2) (normalize_weights [1, 2]) = [[1/3, 2/3]] := by
    norm_num [grouping, pick_loop, normalize_weights]
  have h2 : backward_scan 1 1 (1/2) (normalize_weights [1, 2]) = [[1/3], [2/3]] := by
    norm_num [backward_scan, backward_scan_step, close_cond, normalize_weights]
  refine ⟨h1, h2, ?_⟩
  rw [h1, h2]
  simp

/-- Claim C2 (amended): the grouping phase consumes the weights starting from
the FIRST weight of the list and proceeding forward (the code reverses the
vector precisely so that popping from its end yields the original order); the
group decomposition equals the forward greedy scan, and the concatenation of
the emitted groups is the input weight list in its original order. -/
theorem claim_C2_amended (ta hh ar : ℚ) (ws : List ℚ) :
    grouping ta hh ar ws = forward_scan ta hh ar ws []
    ∧ (grouping ta hh ar ws).flatten = ws := by
  unfold grouping
  rw [List.reverse_reverse]
  exact ⟨pick_loop_eq_forward_scan ta hh ar ws [], by simpa using pick_loop_flatten ta hh ar ws []⟩

/-- Claim C3: in the grouping phase, no emitted group is empty, the groups
concatenate to the processed weight list, every emitted group except possibly
the last satisfies the first-item aspect test (band outer extent = group sum
times total area over band inner extent; first item's inner extent = band
inner extent times first weight over group sum; their quotient at least the
target), and every proper non-empty prefix of any emitted group fails that
test; the final group is the non-empty remainder closed after all weights
are consumed. -/
theorem claim_C3 (ta hh ar : ℚ) (ws : List ℚ) :
    ([] ∉ grouping ta hh ar ws)
    ∧ (grouping ta hh ar ws).flatten = ws
    ∧ (∀ gg ∈ (grouping ta hh ar ws).dropLast, close_cond ta hh ar gg)
    ∧ (∀ gg ∈ grouping ta hh ar ws,
        ∀ k, 0 < k → k < gg.length → ¬ close_cond ta hh ar (gg.take k)) := by
  unfold grouping
  rw [List.reverse_reverse]
  refine ⟨?_, ?_, ?_, ?_⟩
  · intro hmem
    exact pick_loop_ne_nil ta hh ar ws [] [] hmem rfl
  · simpa using pick_loop_flatten ta hh ar ws []
  · exact pick_loop_dropLast_cond ta hh ar ws []
  · refine pick_loop_take_fail ta hh ar ws [] ?_
    intro k hk hk2
    exfalso
    simp only [List.length_nil] at hk2
    omega

/-- Claim C8: the corner-bias rounding takes one of four policies; the
rounding of a point coordinate is a ceiling exactly for the right-biased
policies on x and the bottom-biased policies on y, and a floor otherwise,
each coordinate independently; in particular the top-left policy floors both
coordinates and the bottom-right policy ceils both.  The positioned-rectangle
rounding (modelled from the spec over the source's `Point::round`) rounds the
two opposite corners under the chosen policy. -/
theorem claim_C8 (p : Point) (e : Edge) (a : AxisAlignedRectangle) :
    p.round e = ⟨((if ceils_x e then ⌈p.x⌉ else ⌊p.x⌋ : ℤ) : ℚ),
                 ((if ceils_y e then ⌈p.y⌉ else ⌊p.y⌋ : ℤ) : ℚ)⟩
    ∧ p.round .LeftTop = ⟨((⌊p.x⌋ : ℤ) : ℚ), ((⌊p.y⌋ : ℤ) : ℚ)⟩
    ∧ p.round .RightBottom = ⟨((⌈p.x⌉ : ℤ) : ℚ), ((⌈p.y⌉ : ℤ) : ℚ)⟩
    ∧ (a.round_with_bias e).point = a.point.round e
    ∧ (a.round_with_bias e).x + (a.round_with_bias e).width
        = ((Point.mk (a.x + a.width) (a.y + a.height)).round e).x
    ∧ (a.round_with_bias e).y + (a.round_with_bias e).height
        = ((Point.mk (a.x + a.width) (a.y + a.height)).round e).y := by
  cases e <;>
    simp [Point.round, ceils_x, ceils_y, AxisAlignedRectangle.round_with_bias,
      AxisAlignedRectangle.x, AxisAlignedRectangle.y, AxisAlignedRectangle.width,
      AxisAlignedRectangle.height]

end RectDiv
